import Mathlib

/-!
# Verification of the RAG query cache (rag-query-cache module)

A shallow embedding of the query-result cache with fuzzy-match lookup:
normalization, Levenshtein distance, similarity scoring, TTL expiry,
LRU eviction, and the persistence fault model.

Modelling conventions:
* JS strings are lists of characters (`List Char`); the inputs of interest
  are ASCII, and `Char.toLower` agrees with JS `toLowerCase` there.
* JS numbers are exact rationals (`ℚ`); timestamps (`Date.now()`,
  ISO date strings) are natural numbers counting milliseconds.
* The JS object `cache.queries` is an insertion-ordered association list
  with unique keys, matching JS object key iteration order: assignment to
  an existing key keeps its position, assignment to a fresh key appends.
* The opaque `vectorResults` payload is modelled by a natural number id.
* The `metadata` block of the persisted document (`currentSize`,
  `lastUpdated`, ...) is derived bookkeeping that no cache operation reads;
  it is omitted from the state.
* `Array.prototype.sort` with comparator
  `new Date(a.lastAccessed) - new Date(b.lastAccessed)` is a stable
  ascending sort; it is modelled by stable insertion sort with the
  reflexive order on `lastAccessed`.
* Filesystem reads/writes are modelled by an explicit disk state and a
  write-success flag; a thrown JS exception is an `Except.error` which the
  surrounding `try/catch` of each public operation turns into the
  degraded result, exactly as in the source.
-/

namespace RagCache

/-- Keys (query strings) are lists of characters. -/
abbrev Key := List Char

/-! ## Configuration constants (constructor of `RAGQueryCache`) -/

/-- Cache expires after 168 hours (7 days). -/
def ttlHours : Nat := 168

/-- The TTL in milliseconds, as added to `now.getTime()` in `cacheResults`. -/
def ttlMs : Nat := ttlHours * 60 * 60 * 1000

/-- Maximum number of cached queries (LRU eviction). -/
def maxQueries : Nat := 10

/-- Minimum similarity score for fuzzy matches (0-1). -/
def fuzzyThreshold : ℚ := 0.8

/-! ## `normalizeForFuzzy`

The source applies, in order: `toLowerCase`, removal of whole-word
occurrences of a question-word denylist, removal of whole-word occurrences
of an availability/options denylist, removal of punctuation characters,
collapsing of whitespace runs to single spaces, and `trim`.

A JS regex `\b(w1|w2|...)\b` with word-only alternatives matches exactly
the maximal word-character runs whose text is one of the alternatives
(a `\b` boundary occurs precisely between a word character and a
non-word character or the string edge), so global replacement by the
empty string deletes exactly those runs.  The run decomposition below
implements this. -/

/-- JS regex word characters (`\w` and the `\b` boundary): ASCII letters,
digits, underscore. -/
def isWordChar (c : Char) : Bool := c.isAlpha || c.isDigit || c == '_'

/-- Splits a string into its maximal runs of word / non-word characters,
tagging each run with whether it is a word run.  `w` and `acc` hold the
tag and the reversed characters of the run being accumulated. -/
def runsAux : List Char → Bool → List Char → List (Bool × List Char)
  | [], w, acc => [(w, acc.reverse)]
  | c :: cs, w, acc =>
    if isWordChar c == w then runsAux cs w (c :: acc)
    else (w, acc.reverse) :: runsAux cs (isWordChar c) [c]

/-- Maximal word/non-word runs of a string. -/
def runs : List Char → List (Bool × List Char)
  | [] => []
  | c :: cs => runsAux cs (isWordChar c) [c]

/-- Global replacement of `\b(w ∈ ws)\b` by the empty string: deletes every
maximal word run equal to a denylisted word. -/
def removeWords (ws : List Key) (s : List Char) : List Char :=
  ((runs s).map (fun r => if r.1 && ws.contains r.2 then [] else r.2)).flatten

/-- The question-word denylist of the first `replace` call. -/
def questionWords : List Key :=
  ["what", "is", "the", "do", "you", "have", "tell", "me", "about",
   "can", "we", "get", "any", "some"].map String.data

/-- The availability/options denylist of the second `replace` call;
`items?` and `options?` expand to both alternatives. -/
def availabilityWords : List Key :=
  ["availability", "available", "item", "items", "option", "options",
   "choice", "choices"].map String.data

/-- The punctuation character class `[?!.,;:'"()]` of the third `replace`. -/
def punctuationChars : List Char :=
  ['?', '!', '.', ',', ';', ':', '\'', '"', '(', ')']

/-- Collapses each maximal whitespace run to a single space (`\s+` → one
space); `prevWs` records whether the previous character was whitespace. -/
def collapseWsAux : List Char → Bool → List Char
  | [], _ => []
  | c :: cs, prevWs =>
    if c.isWhitespace then
      if prevWs then collapseWsAux cs true else ' ' :: collapseWsAux cs true
    else c :: collapseWsAux cs false

/-- The `\s+` → single-space replacement. -/
def collapseWs (s : List Char) : List Char := collapseWsAux s false

/-- JS `String.prototype.trim`: drop leading and trailing whitespace. -/
def trimWs (s : List Char) : List Char :=
  ((s.dropWhile Char.isWhitespace).reverse.dropWhile Char.isWhitespace).reverse

/-- The `[?!.,;:'"()]` → empty replacement: drop punctuation characters. -/
def removePunctuation (s : List Char) : List Char :=
  s.filter (fun c => !(punctuationChars.contains c))

/-- Function `normalizeForFuzzy` from the source: lowercase, drop question words,
drop availability/options words, strip punctuation, collapse whitespace,
trim. -/
def normalizeForFuzzy (query : List Char) : List Char :=
  trimWs (collapseWs (removePunctuation
    (removeWords availabilityWords
      (removeWords questionWords (query.map Char.toLower)))))

/-! ## `levenshteinDistance`

The source fills an `(len1+1) × (len2+1)` matrix with
`matrix[i][0] = i`, `matrix[0][j] = j` and
`matrix[i][j] = matrix[i-1][j-1]` when `str1[i-1] = str2[j-1]`, else
`1 + min(matrix[i-1][j], matrix[i][j-1], matrix[i-1][j-1])`, returning
`matrix[len1][len2]`.  We compute it row by row. -/

/-- Computes the cells `matrix[i][1..len2]` of row `i` from the tail of the
previous row (`diag :: rest`, starting at `matrix[i-1][j-1]`) and the cell
to the left (`left`, starting at the border `matrix[i][0] = i`). -/
def levRow (c1 : Char) : List Char → List Nat → Nat → List Nat
  | [], _, _ => []
  | _ :: _, [], _ => []
  | c2 :: s2, diag :: rest, left =>
    let above := rest.headD 0
    let cell := if c1 == c2 then diag
                else min (above + 1) (min (left + 1) (diag + 1))
    cell :: levRow c1 s2 rest cell

/-- Iterates `levRow` over the rows `i = 1, ..., len1`, starting from the
border row `matrix[0][j] = j`; returns the final full row. -/
def levRows (s2 : List Char) : List Char → List Nat → Nat → List Nat
  | [], prev, _ => prev
  | c1 :: s1, prev, i => levRows s2 s1 (i :: levRow c1 s2 prev i) (i + 1)

/-- Function `levenshteinDistance` from the source: the bottom-right cell
`matrix[len1][len2]` of the dynamic-programming matrix. -/
def levenshteinDistance (str1 str2 : List Char) : Nat :=
  (levRows str2 str1 (List.range (str2.length + 1)) 1).getLastD 0

/-! ## `calculateSimilarity` and `findFuzzyMatch` -/

/-- Function `calculateSimilarity` from the source: normalize both strings, then
`1 - distance / maxLen`, with similarity `1` when both normal forms are
empty. -/
def calculateSimilarity (str1 str2 : List Char) : ℚ :=
  let normalizedStr1 := normalizeForFuzzy str1
  let normalizedStr2 := normalizeForFuzzy str2
  let maxLen := max normalizedStr1.length normalizedStr2.length
  if maxLen = 0 then 1
  else 1 - (levenshteinDistance normalizedStr1 normalizedStr2 : ℚ) / (maxLen : ℚ)

/-- A cached entry (one value of `cache.queries`).  `expiresAt` is optional
because `isExpired` treats a missing `expiresAt` as expired. -/
structure QueryData where
  vectorResults : Nat
  cachedAt : Nat
  expiresAt : Option Nat
  lastAccessed : Nat
  hitCount : Nat
deriving DecidableEq, Repr

/-- The in-memory cache: the insertion-ordered `queries` object. -/
abbrev Cache := List (Key × QueryData)

/-- The scan of `findFuzzyMatch` over `Object.keys(cache.queries)`:
`best`/`bestSim` carry the best candidate so far (`bestSimilarity` starts
at `0`); a key is taken when `similarity >= fuzzyThreshold` and
`similarity > bestSimilarity`. -/
def findFuzzyMatchAux (query : Key) : List Key → Option (Key × ℚ) → ℚ → Option (Key × ℚ)
  | [], best, _ => best
  | k :: ks, best, bestSim =>
    let s := calculateSimilarity query k
    if fuzzyThreshold ≤ s ∧ bestSim < s then findFuzzyMatchAux query ks (some (k, s)) s
    else findFuzzyMatchAux query ks best bestSim

/-- Function `findFuzzyMatch` from the source: best-scoring accepted candidate
(`{key, similarity}`) over all stored keys, or `none`. -/
def findFuzzyMatch (query : Key) (cache : Cache) : Option (Key × ℚ) :=
  findFuzzyMatchAux query (cache.map Prod.fst) none 0

/-! ## Cache state operations -/

/-- JS object read `cache.queries[k]`. -/
def getKey (c : Cache) (k : Key) : Option QueryData :=
  (c.find? (fun p => p.1 == k)).map Prod.snd

/-- JS object write `cache.queries[k] = d`: overwrite in place when the key
exists, append otherwise. -/
def setKey (c : Cache) (k : Key) (d : QueryData) : Cache :=
  if c.any (fun p => p.1 == k) then
    c.map (fun p => if p.1 == k then (p.1, d) else p)
  else c ++ [(k, d)]

/-- Function `isExpired` from the source: entries with no expiration data are
expired; otherwise expired exactly when `now > expiresAt`. -/
def isExpired (now : Nat) (queryData : QueryData) : Bool :=
  match queryData.expiresAt with
  | none => true
  | some e => now > e

/-- The hit-path mutation of `getCachedResults`:
`lastAccessed = now; hitCount = (hitCount || 0) + 1`. -/
def touch (now : Nat) (d : QueryData) : QueryData :=
  { d with lastAccessed := now, hitCount := d.hitCount + 1 }

/-- The fuzzy step of `getCachedResults`: look up the best fuzzy candidate;
a hit (value, updated cache, save performed) only when that candidate's
entry exists and is unexpired, otherwise a miss leaving the cache alone. -/
def fuzzyStep (now : Nat) (c : Cache) (query : Key) : Option Nat × Cache × Bool :=
  match findFuzzyMatch query c with
  | some (k, _) =>
    match getKey c k with
    | some fd =>
      if isExpired now fd then (none, c, false)
      else (some fd.vectorResults, setKey c k (touch now fd), true)
    | none => (none, c, false)
  | none => (none, c, false)

/-- The in-memory body of `getCachedResults` (after a successful load):
exact match first (only when present and unexpired), then the fuzzy step.
Returns the result, the cache to persist, and whether `saveCache` is
called. -/
def lookupCore (now : Nat) (c : Cache) (query : Key) : Option Nat × Cache × Bool :=
  match getKey c query with
  | some qd =>
    if isExpired now qd then fuzzyStep now c query
    else (some qd.vectorResults, setKey c query (touch now qd), true)
  | none => fuzzyStep now c query

/-- The LRU order used by `enforceMaxSize`: ascending `lastAccessed`. -/
def lruLE (a b : Key × QueryData) : Prop :=
  a.2.lastAccessed ≤ b.2.lastAccessed

instance : DecidableRel lruLE := fun a b => Nat.decLe _ _

/-- Function `enforceMaxSize` from the source: when `|queries| > maxQueries`,
stably sort the entries by ascending `lastAccessed` and delete the keys of
the first `|queries| - maxQueries` of them. -/
def enforceMaxSize (qs : Cache) : Cache :=
  if qs.length ≤ maxQueries then qs
  else
    let sorted := List.insertionSort lruLE qs
    let toRemove := (sorted.take (qs.length - maxQueries)).map Prod.fst
    qs.filter (fun p => !(toRemove.contains p.1))

/-- The fresh entry written by `cacheResults`. -/
def mkEntry (now : Nat) (v : Nat) : QueryData :=
  { vectorResults := v
    cachedAt := now
    expiresAt := some (now + ttlMs)
    lastAccessed := now
    hitCount := 0 }

/-- The in-memory body of `cacheResults` (after a successful load):
add/update the entry, then enforce the maximum size. -/
def storeCore (now : Nat) (c : Cache) (query : Key) (v : Nat) : Cache :=
  enforceMaxSize (setKey c query (mkEntry now v))

/-! ## Persistence fault model -/

/-- The state of the backing JSON file. -/
inductive DiskState where
  | absent
  | corrupt
  | good (c : Cache)
deriving DecidableEq, Repr

/-- Function `loadCache` from the source: a missing file (`ENOENT`) yields the empty
cache; any other read/parse failure rethrows. -/
def loadCache : DiskState → Except Unit Cache
  | .absent => .ok []
  | .corrupt => .error ()
  | .good c => .ok c

/-- Function `getCachedResults` from the source, including its `try/catch`: a load
error or a failed `saveCache` degrades to a `null` result and leaves the
disk unchanged; a successful save persists the updated cache. -/
def getCachedResults (now : Nat) (disk : DiskState) (writeOk : Bool) (query : Key) :
    Option Nat × DiskState :=
  match loadCache disk with
  | .error _ => (none, disk)
  | .ok c =>
    let out := lookupCore now c query
    if out.2.2 then
      if writeOk then (out.1, .good out.2.1) else (none, disk)
    else (out.1, disk)

/-- Function `cacheResults` from the source, including its `try/catch`: a load error
or a failed `saveCache` silently drops the write. -/
def cacheResults (now : Nat) (disk : DiskState) (writeOk : Bool) (query : Key) (v : Nat) :
    DiskState :=
  match loadCache disk with
  | .error _ => disk
  | .ok c => if writeOk then .good (storeCore now c query v) else disk

/-- A sequence of `store` operations on the in-memory state, one triple
`(query, value, time)` per call, with no intervening reads. -/
def storeSeq (items : List (Key × Nat × Nat)) (c : Cache) : Cache :=
  items.foldl (fun acc it => storeCore it.2.2 acc it.1 it.2.1) c

/-! ## Reference Levenshtein distance

The specification's reference notion of edit distance — classic
single-character-edit Levenshtein distance with insertion, deletion and
substitution each costing 1 — is Mathlib's `levenshtein` with the default
(unit) cost structure.  We prove below that the matrix computation of the
source coincides with it. -/

/-- Classic unit-cost Levenshtein distance (the reference definition). -/
def lev (s t : List Char) : ℕ :=
  levenshtein Levenshtein.defaultCost s t

/-- The substitution cost of the unit cost structure. -/
def subCost (a b : Char) : ℕ := if a = b then 0 else 1

/-- The reference values of one matrix row: the distances from `p` to the
successive extensions of `q` along `t`
(`matrix[i][j] = lev (s1 take i) (s2 take j)` in matrix terms). -/
def levSpecRow (p q : List Char) : List Char → List Nat
  | [] => [lev p q]
  | b :: t => lev p q :: levSpecRow p (q ++ [b]) t

/-- The entries created by a sequence of `store` calls given as
`(query, value, time)` triples. -/
def storedEntries (items : List (Key × Nat × Nat)) : Cache :=
  items.map (fun it => (it.1, mkEntry it.2.2 it.2.1))

/-- Modelled from the spec: the kind tag of the caller contract, which
distinguishes exact from fuzzy hits in the abstract lookup result. -/
inductive SpecKind where
  | exactKind
  | fuzzyKind
deriving DecidableEq, Repr

/-- Concrete scenario: an expired best-scoring key before an unexpired
above-threshold key (both fuzzily similar to the query `"aaaaa"`). -/
def expiredBestCache : Cache :=
  [("aaaaa?".data, ⟨1, 0, some 500, 0, 0⟩), ("aaaab".data, ⟨2, 0, some 2000, 0, 0⟩)]

/-- Concrete scenario: two keys whose normal forms are empty, the first
expired, the second live (query `"what"` also normalizes to empty). -/
def emptyNormCache : Cache :=
  [("is".data, ⟨1, 0, some 500, 0, 0⟩), ("the".data, ⟨2, 0, some 2000, 0, 0⟩)]

/-- Concrete scenario: a live entry hit exactly by the query `"menu"`. -/
def exactHitCache : Cache := [("menu".data, ⟨42, 0, some 2000, 0, 0⟩)]

/-- Concrete scenario: a live entry hit only fuzzily by the query
`"menu"`. -/
def fuzzyHitCache : Cache := [("menu?".data, ⟨42, 0, some 2000, 0, 0⟩)]

/-- Concrete scenario: a full cache (10 entries) in which every entry is
expired, with ascending `lastAccessed` values. -/
def expiredFullCache : Cache :=
  [("q0".data, ⟨0, 0, some 100, 0, 0⟩), ("q1".data, ⟨1, 1, some 100, 1, 0⟩),
   ("q2".data, ⟨2, 2, some 100, 2, 0⟩), ("q3".data, ⟨3, 3, some 100, 3, 0⟩),
   ("q4".data, ⟨4, 4, some 100, 4, 0⟩), ("q5".data, ⟨5, 5, some 100, 5, 0⟩),
   ("q6".data, ⟨6, 6, some 100, 6, 0⟩), ("q7".data, ⟨7, 7, some 100, 7, 0⟩),
   ("q8".data, ⟨8, 8, some 100, 8, 0⟩), ("q9".data, ⟨9, 9, some 100, 9, 0⟩)]

/-- Concrete scenario: eleven distinct stores at strictly increasing
times. -/
def storeItems : List (Key × Nat × Nat) :=
  [("q0".data, 0, 0), ("q1".data, 1, 1), ("q2".data, 2, 2), ("q3".data, 3, 3),
   ("q4".data, 4, 4), ("q5".data, 5, 5), ("q6".data, 6, 6), ("q7".data, 7, 7),
   ("q8".data, 8, 8), ("q9".data, 9, 9), ("qA".data, 10, 10)]

theorem lev_nil_left (t : List Char) : lev [] t = t.length := by
  induction t with
  | nil => simp [lev]
  | cons b t ih => simp [lev, levenshtein_nil_cons] at ih ⊢; omega

theorem lev_nil_right (s : List Char) : lev s [] = s.length := by
  induction s with
  | nil => simp [lev]
  | cons a s ih => simp [lev, levenshtein_cons_nil] at ih ⊢; omega

theorem lev_cons_cons (a : Char) (s : List Char) (b : Char) (t : List Char) :
    lev (a :: s) (b :: t) =
      min (lev s (b :: t) + 1) (min (lev (a :: s) t + 1) (lev s t + subCost a b)) := by
  simp only [lev, levenshtein_cons_cons, Levenshtein.defaultCost_delete,
    Levenshtein.defaultCost_insert, Levenshtein.defaultCost_substitute, subCost]
  omega

/-- Lower bound: the distance is at least the length difference
(left-length form). -/
theorem lev_len_le_left : ∀ s t : List Char, s.length ≤ lev s t + t.length := by
  intro s
  induction s with
  | nil => intro t; simp
  | cons a s ihs =>
    intro t
    induction t with
    | nil => simp [lev_nil_right]
    | cons b t iht =>
      have h1 := ihs (b :: t)
      have h2 := iht
      have h3 := ihs t
      rw [lev_cons_cons]
      simp only [List.length_cons] at *
      omega

/-- Lower bound: the distance is at least the length difference
(right-length form). -/
theorem lev_len_le_right : ∀ s t : List Char, t.length ≤ lev s t + s.length := by
  intro s
  induction s with
  | nil => intro t; simp [lev_nil_left]
  | cons a s ihs =>
    intro t
    induction t with
    | nil => simp
    | cons b t iht =>
      have h1 := ihs (b :: t)
      have h2 := iht
      have h3 := ihs t
      rw [lev_cons_cons]
      simp only [List.length_cons] at *
      omega

/-- The substitution cost is zero or one. -/
theorem subCost_le_one (a b : Char) : subCost a b ≤ 1 := by
  simp only [subCost]; split <;> omega

/-- Appending one character on the right of the second argument changes the
distance by at most one (one direction). -/
theorem lev_le_snoc_right (b : Char) :
    ∀ s t : List Char, lev s t ≤ lev s (t ++ [b]) + 1 := by
  intro s
  induction s with
  | nil =>
    intro t
    simp only [lev_nil_left, List.length_append, List.length_singleton]
    omega
  | cons a s ihs =>
    intro t
    induction t with
    | nil =>
      have h1 := lev_len_le_left s [b]
      have h2 := subCost_le_one a b
      have e1 := lev_cons_cons a s b []
      have e2 := lev_nil_right s
      have e3 := lev_nil_right (a :: s)
      have e4 := lev_nil_left ([b] : List Char)
      simp only [List.nil_append, List.length_cons, List.length_nil,
        List.length_singleton] at *
      omega
    | cons c t iht =>
      have h1 := ihs (c :: t)
      have h2 := iht
      have h3 := ihs t
      have e1 := lev_cons_cons a s c t
      have e2 := lev_cons_cons a s c (t ++ [b])
      simp only [List.cons_append] at *
      omega

/-- Appending one character on the right of the first argument changes the
distance by at most one (one direction). -/
theorem lev_le_snoc_left (a : Char) :
    ∀ t s : List Char, lev s t ≤ lev (s ++ [a]) t + 1 := by
  intro t
  induction t with
  | nil =>
    intro s
    simp only [lev_nil_right, List.length_append, List.length_singleton]
    omega
  | cons b t iht =>
    intro s
    induction s with
    | nil =>
      have h1 := lev_len_le_right [a] t
      have h2 := subCost_le_one a b
      have e1 := lev_cons_cons a [] b t
      have e2 := lev_nil_left t
      have e3 := lev_nil_left (b :: t)
      have e4 := lev_nil_right ([a] : List Char)
      simp only [List.nil_append, List.length_cons, List.length_nil,
        List.length_singleton] at *
      omega
    | cons c s ihs =>
      have h1 := iht (c :: s)
      have h2 := ihs
      have h3 := iht s
      have e1 := lev_cons_cons c s b t
      have e2 := lev_cons_cons c (s ++ [a]) b t
      simp only [List.cons_append] at *
      omega

/-- The matrix recurrence on final characters: distance between `s ++ [a]`
and `t ++ [b]` in terms of the three neighbouring sub-distances. -/
theorem lev_snoc_snoc (a b : Char) :
    ∀ s t : List Char,
      lev (s ++ [a]) (t ++ [b]) =
        min (lev s (t ++ [b]) + 1) (min (lev (s ++ [a]) t + 1) (lev s t + subCost a b)) := by
  intro s
  induction s with
  | nil =>
    intro t
    induction t with
    | nil =>
      simpa using lev_cons_cons a [] b []
    | cons c t iht =>
      have e0 := lev_cons_cons a [] c (t ++ [b])
      have e1 := lev_cons_cons a [] c t
      have n1 := lev_nil_left (c :: (t ++ [b]))
      have n2 := lev_nil_left (t ++ [b])
      have n3 := lev_nil_left (c :: t)
      have n4 := lev_nil_left t
      simp only [List.nil_append, List.cons_append, List.length_cons,
        List.length_append, List.length_singleton, List.length_nil] at *
      omega
  | cons c s ihs =>
    intro t
    induction t with
    | nil =>
      have h1 := ihs []
      have e0 := lev_cons_cons c (s ++ [a]) b []
      have e1 := lev_cons_cons c s b []
      have n1 := lev_nil_right (s ++ [a])
      have n2 := lev_nil_right s
      have n3 := lev_nil_right (c :: s)
      have n4 := lev_nil_right (c :: (s ++ [a]))
      simp only [List.nil_append, List.cons_append, List.length_cons,
        List.length_append, List.length_singleton, List.length_nil] at *
      omega
    | cons d t iht =>
      have h1 := ihs (d :: t)
      have h2 := iht
      have h3 := ihs t
      have e0 := lev_cons_cons c (s ++ [a]) d (t ++ [b])
      have e1 := lev_cons_cons c s d (t ++ [b])
      have e2 := lev_cons_cons c (s ++ [a]) d t
      have e3 := lev_cons_cons c s d t
      simp only [List.cons_append] at h1 h2 ⊢
      rw [e0, h1, h2, h3, e1, e2, e3]
      clear e0 e1 e2 e3 h1 h2 h3 ihs iht
      apply le_antisymm
      · simp only [le_min_iff, min_le_iff]
        omega
      · simp only [le_min_iff, min_le_iff]
        omega

theorem levSpecRow_headD (p q : List Char) (t : List Char) :
    (levSpecRow p q t).headD 0 = lev p q := by
  cases t <;> rfl

theorem levSpecRow_cons_tail (p q : List Char) (t : List Char) :
    lev p q :: (levSpecRow p q t).tail = levSpecRow p q t := by
  cases t <;> rfl

/-- The inner loop computes exactly the reference values of the next row. -/
theorem levRow_spec (p : List Char) (a : Char) :
    ∀ (t q : List Char),
      levRow a t (levSpecRow p q t) (lev (p ++ [a]) q) = (levSpecRow (p ++ [a]) q t).tail := by
  intro t
  induction t with
  | nil => intro q; rfl
  | cons b t ih =>
    intro q
    show levRow a (b :: t) (lev p q :: levSpecRow p (q ++ [b]) t) (lev (p ++ [a]) q) = _
    rw [levRow]
    have hcell :
        (if a == b then lev p q
         else min ((levSpecRow p (q ++ [b]) t).headD 0 + 1)
           (min (lev (p ++ [a]) q + 1) (lev p q + 1))) = lev (p ++ [a]) (q ++ [b]) := by
      rw [levSpecRow_headD]
      have hrec := lev_snoc_snoc a b p q
      have hub1 := lev_le_snoc_right b p q
      have hub2 := lev_le_snoc_left a q p
      by_cases hab : a = b
      · simp only [hab, beq_self_eq_true, if_pos, subCost, if_pos rfl] at hrec ⊢
        subst hab
        omega
      · have : (a == b) = false := beq_eq_false_iff_ne.mpr hab
        simp only [this, Bool.false_eq_true, if_false]
        simp only [subCost, if_neg hab] at hrec
        omega
    rw [hcell, ih (q ++ [b]), levSpecRow_cons_tail]
    rfl

/-- The outer loop carries the reference row for the processed part of the
first string. -/
theorem levRows_spec (s2 : List Char) :
    ∀ (s1 p : List Char),
      levRows s2 s1 (levSpecRow p [] s2) (p.length + 1) = levSpecRow (p ++ s1) [] s2 := by
  intro s1
  induction s1 with
  | nil => intro p; simp [levRows]
  | cons a s1 ih =>
    intro p
    rw [levRows]
    have hleft : lev (p ++ [a]) [] = p.length + 1 := by
      rw [lev_nil_right]; simp
    have h2 := levRow_spec p a s2 []
    rw [hleft] at h2
    have h3 := levSpecRow_cons_tail (p ++ [a]) [] s2
    rw [hleft] at h3
    have hrow : (p.length + 1) :: levRow a s2 (levSpecRow p [] s2) (p.length + 1) =
        levSpecRow (p ++ [a]) [] s2 := by
      rw [h2]
      exact h3
    rw [hrow]
    have ih2 := ih (p ++ [a])
    rw [show (p ++ [a]).length + 1 = p.length + 1 + 1 by simp] at ih2
    rw [ih2]
    simp

theorem levSpecRow_getLastD (p : List Char) :
    ∀ (t q : List Char) (dflt : Nat), (levSpecRow p q t).getLastD dflt = lev p (q ++ t) := by
  intro t
  induction t with
  | nil => intro q dflt; simp [levSpecRow]
  | cons b t ih =>
    intro q dflt
    rw [levSpecRow, List.getLastD_cons, ih (q ++ [b])]
    simp

theorem levSpecRow_nil_left :
    ∀ (t q : List Char), levSpecRow [] q t = List.range' q.length (t.length + 1) := by
  intro t
  induction t with
  | nil => intro q; simp [levSpecRow, lev_nil_left, List.range'_succ]
  | cons b t ih =>
    intro q
    rw [levSpecRow, lev_nil_left, ih (q ++ [b])]
    rw [show (b :: t).length + 1 = (t.length + 1) + 1 by simp, List.range'_succ,
      List.range'_succ]
    rw [List.length_append, List.length_singleton, List.range'_succ]

/-- Main correctness result for the dynamic program of the source: the
matrix computation `levenshteinDistance` is the classic unit-cost
Levenshtein distance. -/
theorem levenshteinDistance_eq_lev (s1 s2 : List Char) :
    levenshteinDistance s1 s2 = lev s1 s2 := by
  unfold levenshteinDistance
  have h0 : List.range (s2.length + 1) = levSpecRow [] [] s2 := by
    rw [levSpecRow_nil_left s2 [], List.range_eq_range']
    simp
  rw [h0]
  have h1 := levRows_spec s2 s1 []
  simp only [List.length_nil, Nat.zero_add, List.nil_append] at h1
  rw [h1, levSpecRow_getLastD s1 s2 [] 0]
  simp

/-! ## Similarity facts -/

theorem fuzzyThreshold_pos : (0 : ℚ) < fuzzyThreshold := by
  norm_num [fuzzyThreshold]

theorem calculateSimilarity_le_one (s1 s2 : List Char) :
    calculateSimilarity s1 s2 ≤ 1 := by
  simp only [calculateSimilarity]
  split
  · exact le_refl 1
  · have h0 : (0 : ℚ) ≤ (levenshteinDistance (normalizeForFuzzy s1) (normalizeForFuzzy s2) : ℚ) /
        ((max (normalizeForFuzzy s1).length (normalizeForFuzzy s2).length : ℕ) : ℚ) := by
      positivity
    linarith

/-- Evaluation lemma: similarity on concrete strings in terms of the
normal forms, the distance and the maximal length. -/
theorem calculateSimilarity_eval (s1 s2 n1 n2 : List Char) (d m : ℕ)
    (h1 : normalizeForFuzzy s1 = n1) (h2 : normalizeForFuzzy s2 = n2)
    (hd : levenshteinDistance n1 n2 = d) (hm : max n1.length n2.length = m)
    (hm0 : m ≠ 0) :
    calculateSimilarity s1 s2 = 1 - (d : ℚ) / (m : ℚ) := by
  simp only [calculateSimilarity, h1, h2, hd, hm, if_neg hm0]

/-- Two strings with empty normal forms have similarity 1. -/
theorem calculateSimilarity_empty (s1 s2 : List Char)
    (h1 : normalizeForFuzzy s1 = []) (h2 : normalizeForFuzzy s2 = []) :
    calculateSimilarity s1 s2 = 1 := by
  simp [calculateSimilarity, h1, h2]

/-- An empty normal form against a non-empty one has similarity 0. -/
theorem calculateSimilarity_empty_left (s1 s2 : List Char)
    (h1 : normalizeForFuzzy s1 = []) (h2 : normalizeForFuzzy s2 ≠ []) :
    calculateSimilarity s1 s2 = 0 := by
  have hlen : (normalizeForFuzzy s2).length ≠ 0 := by
    simpa [List.length_eq_zero] using h2
  simp only [calculateSimilarity, h1, List.length_nil, Nat.zero_max, if_neg hlen]
  rw [levenshteinDistance_eq_lev, lev_nil_left]
  rw [div_self (by exact_mod_cast hlen)]
  ring

/-! ## Characterization of `findFuzzyMatch` -/

/-- If every remaining key is rejected by the acceptance test, the
carried best candidate is returned unchanged. -/
theorem findFuzzyMatchAux_const (q : Key) :
    ∀ (ks : List Key) (best : Option (Key × ℚ)) (bs : ℚ),
      (∀ k ∈ ks,
        ¬(fuzzyThreshold ≤ calculateSimilarity q k ∧ bs < calculateSimilarity q k)) →
      findFuzzyMatchAux q ks best bs = best := by
  intro ks
  induction ks with
  | nil => intro best bs _; rfl
  | cons k ks ih =>
    intro best bs h
    rw [findFuzzyMatchAux, if_neg (h k (List.mem_cons_self k ks))]
    exact ih best bs (fun k' hk' => h k' (List.mem_cons_of_mem k hk'))

/-- Invariant-carrying specification of the scan of `findFuzzyMatchAux`:
the returned candidate (if any) is an accepted key of maximal similarity
among the scanned keys and the carried candidate; a `none` result means no
scanned key was accepted. -/
theorem findFuzzyMatchAux_spec (q : Key) :
    ∀ (ks : List Key) (best : Option (Key × ℚ)) (bs : ℚ),
      (best = none → bs = 0) →
      (∀ k s, best = some (k, s) →
        s = bs ∧ s = calculateSimilarity q k ∧ fuzzyThreshold ≤ s) →
      (match findFuzzyMatchAux q ks best bs with
       | some (k, s) =>
           s = calculateSimilarity q k ∧ fuzzyThreshold ≤ s ∧ bs ≤ s ∧
           (k ∈ ks ∨ best = some (k, s)) ∧
           (∀ k' ∈ ks, calculateSimilarity q k' ≤ s)
       | none => best = none ∧ ∀ k' ∈ ks, calculateSimilarity q k' < fuzzyThreshold) := by
  intro ks
  induction ks with
  | nil =>
    intro best bs h0 h1
    cases best with
    | none => exact ⟨rfl, by simp⟩
    | some m =>
      obtain ⟨hbs, hsim, hthr⟩ := h1 m.1 m.2 rfl
      exact ⟨hsim, hthr, le_of_eq hbs.symm, Or.inr rfl, by simp⟩
  | cons k ks ih =>
    intro best bs h0 h1
    rw [findFuzzyMatchAux]
    by_cases hacc : fuzzyThreshold ≤ calculateSimilarity q k ∧ bs < calculateSimilarity q k
    · rw [if_pos hacc]
      have hres := ih (some (k, calculateSimilarity q k)) (calculateSimilarity q k)
        (by intro h; cases h)
        (by
          intro k' s' he
          injection he with he
          injection he with he1 he2
          subst he1; subst he2
          exact ⟨rfl, rfl, hacc.1⟩)
      cases hfind : findFuzzyMatchAux q ks (some (k, calculateSimilarity q k))
          (calculateSimilarity q k) with
      | none =>
        rw [hfind] at hres
        cases hres.1
      | some m =>
        rw [hfind] at hres
        obtain ⟨hsim, hthr, hge, hmem, hall⟩ := hres
        refine ⟨hsim, hthr, le_of_lt (lt_of_lt_of_le hacc.2 hge), ?_, ?_⟩
        · rcases hmem with hm | hm
          · exact Or.inl (List.mem_cons_of_mem k hm)
          · injection hm with hm
            injection hm with hm1 hm2
            exact Or.inl (hm1 ▸ List.mem_cons_self k ks)
        · intro k' hk'
          rcases List.mem_cons.mp hk' with he | hm
          · subst he; exact le_trans (le_of_eq rfl) hge
          · exact hall k' hm
    · rw [if_neg hacc]
      have hres := ih best bs h0 h1
      cases hfind : findFuzzyMatchAux q ks best bs with
      | none =>
        rw [hfind] at hres
        obtain ⟨hbest, hall⟩ := hres
        refine ⟨hbest, ?_⟩
        intro k' hk'
        rcases List.mem_cons.mp hk' with he | hm
        · subst he
          have hbs := h0 hbest
          subst hbs
          by_contra hcon
          push_neg at hcon
          apply hacc
          refine ⟨hcon, ?_⟩
          exact lt_of_lt_of_le fuzzyThreshold_pos hcon
        · exact hall k' hm
      | some m =>
        rw [hfind] at hres
        obtain ⟨hsim, hthr, hge, hmem, hall⟩ := hres
        refine ⟨hsim, hthr, hge, ?_, ?_⟩
        · rcases hmem with hm | hm
          · exact Or.inl (List.mem_cons_of_mem k hm)
          · exact Or.inr hm
        · intro k' hk'
          rcases List.mem_cons.mp hk' with he | hm
          · subst he
            by_cases hth : fuzzyThreshold ≤ calculateSimilarity q k'
            · have : ¬ bs < calculateSimilarity q k' := fun hlt => hacc ⟨hth, hlt⟩
              push_neg at this
              exact le_trans this hge
            · push_neg at hth
              exact le_of_lt (lt_of_lt_of_le hth hthr)
          · exact hall k' hm

/-- A successful fuzzy scan returns a stored key whose similarity is
maximal over all stored keys (expired or not) and at least the
threshold. -/
theorem findFuzzyMatch_some (q : Key) (c : Cache) (k : Key) (s : ℚ)
    (h : findFuzzyMatch q c = some (k, s)) :
    s = calculateSimilarity q k ∧ fuzzyThreshold ≤ s ∧ k ∈ c.map Prod.fst ∧
      ∀ k' ∈ c.map Prod.fst, calculateSimilarity q k' ≤ s := by
  have hres := findFuzzyMatchAux_spec q (c.map Prod.fst) none 0
    (fun _ => rfl) (by intro k' s' he; cases he)
  rw [findFuzzyMatch] at h
  rw [h] at hres
  obtain ⟨hsim, hthr, _, hmem, hall⟩ := hres
  rcases hmem with hm | hm
  · exact ⟨hsim, hthr, hm, hall⟩
  · cases hm

/-- A failed fuzzy scan means every stored key scores strictly below the
threshold. -/
theorem findFuzzyMatch_none (q : Key) (c : Cache)
    (h : findFuzzyMatch q c = none) :
    ∀ k ∈ c.map Prod.fst, calculateSimilarity q k < fuzzyThreshold := by
  have hres := findFuzzyMatchAux_spec q (c.map Prod.fst) none 0
    (fun _ => rfl) (by intro k' s' he; cases he)
  rw [findFuzzyMatch] at h
  rw [h] at hres
  exact hres.2

/-! ## Association-list and state-operation facts -/

theorem getKey_mem (c : Cache) (k : Key) (d : QueryData) (h : getKey c k = some d) :
    (k, d) ∈ c := by
  simp only [getKey, Option.map_eq_some'] at h
  obtain ⟨p, hp, hpd⟩ := h
  have hmem := List.mem_of_find?_eq_some hp
  have hkey : p.1 = k := by simpa using List.find?_some hp
  cases p with
  | mk p1 p2 =>
    simp only at hkey hpd
    rw [← hkey, ← hpd]
    exact hmem

theorem getKey_isSome_of_mem (c : Cache) (k : Key) (h : k ∈ c.map Prod.fst) :
    ∃ d, getKey c k = some d := by
  simp only [List.mem_map] at h
  obtain ⟨p, hp, hpk⟩ := h
  have : (c.find? (fun p => p.1 == k)).isSome := by
    rw [List.find?_isSome]
    exact ⟨p, hp, by simp [hpk]⟩
  obtain ⟨p', hp'⟩ := Option.isSome_iff_exists.mp this
  exact ⟨p'.2, by simp [getKey, hp']⟩

/-- The exact step falls through to the fuzzy step when the query has no
unexpired exact entry. -/
theorem lookupCore_no_exact (now : Nat) (c : Cache) (q : Key)
    (hex : (getKey c q).all (fun d => isExpired now d) = true) :
    lookupCore now c q = fuzzyStep now c q := by
  unfold lookupCore
  cases hg : getKey c q with
  | none => rfl
  | some qd =>
    rw [hg] at hex
    simp only [Option.all_some] at hex
    simp [hex]

/-- The exact step hits when the query has an unexpired exact entry. -/
theorem lookupCore_exact_hit (now : Nat) (c : Cache) (q : Key) (qd : QueryData)
    (hg : getKey c q = some qd) (he : isExpired now qd = false) :
    lookupCore now c q = (some qd.vectorResults, setKey c q (touch now qd), true) := by
  unfold lookupCore
  rw [hg]
  simp [he]

/-- The fuzzy step with a found candidate whose entry exists. -/
theorem fuzzyStep_found (now : Nat) (c : Cache) (q : Key) (k : Key) (s : ℚ)
    (fd : QueryData) (hf : findFuzzyMatch q c = some (k, s)) (hg : getKey c k = some fd) :
    fuzzyStep now c q =
      if isExpired now fd then (none, c, false)
      else (some fd.vectorResults, setKey c k (touch now fd), true) := by
  unfold fuzzyStep
  rw [hf]
  simp only [hg]

/-- The fuzzy step without a candidate is a miss with no state change. -/
theorem fuzzyStep_nomatch (now : Nat) (c : Cache) (q : Key)
    (hf : findFuzzyMatch q c = none) :
    fuzzyStep now c q = (none, c, false) := by
  unfold fuzzyStep
  rw [hf]

/-- Within the size limit, `enforceMaxSize` changes nothing. -/
theorem enforceMaxSize_of_le (qs : Cache) (h : qs.length ≤ maxQueries) :
    enforceMaxSize qs = qs := by
  simp [enforceMaxSize, h]

/-- Eviction counts every entry (expired or not): with distinct
keys it always leaves exactly `min |queries| maxQueries` entries. -/
theorem enforceMaxSize_length (qs : Cache) (hnd : (qs.map Prod.fst).Nodup) :
    (enforceMaxSize qs).length = min qs.length maxQueries := by
  by_cases hle : qs.length ≤ maxQueries
  · rw [enforceMaxSize_of_le qs hle, Nat.min_eq_left hle]
  · push_neg at hle
    have hgoal : enforceMaxSize qs = qs.filter (fun p =>
        !(((List.insertionSort lruLE qs).take (qs.length - maxQueries)).map
            Prod.fst).contains p.1) := by
      simp only [enforceMaxSize, if_neg (Nat.not_le.mpr hle)]
    rw [hgoal, Nat.min_eq_right (le_of_lt hle)]
    set sorted := List.insertionSort lruLE qs with hsdef
    set toRemove := (sorted.take (qs.length - maxQueries)).map Prod.fst with htr
    have hperm : List.Perm sorted qs := List.perm_insertionSort lruLE qs
    have hkeysperm : List.Perm (sorted.map Prod.fst) (qs.map Prod.fst) := hperm.map Prod.fst
    have hnds : (sorted.map Prod.fst).Nodup := hkeysperm.nodup_iff.mpr hnd
    have htrsl : toRemove.Sublist (sorted.map Prod.fst) := by
      rw [htr, List.map_take]
      exact List.take_sublist _ _
    have htrnd : toRemove.Nodup := hnds.sublist htrsl
    have htrlen : toRemove.length = qs.length - maxQueries := by
      rw [htr, List.length_map, List.length_take]
      have hlen : sorted.length = qs.length := hperm.length_eq
      omega
    have hsplit : qs.length = (qs.filter (fun p => toRemove.contains p.1)).length +
        (qs.filter (fun p => !(toRemove.contains p.1))).length := by
      simpa using @List.length_eq_length_filter_add _ qs (fun p => toRemove.contains p.1)
    have hAle : (qs.filter (fun p => toRemove.contains p.1)).length ≤ toRemove.length := by
      have hAsl := List.filter_sublist (p := fun p => toRemove.contains p.1) qs
      have hAnd : ((qs.filter (fun p => toRemove.contains p.1)).map Prod.fst).Nodup :=
        hnd.sublist (hAsl.map Prod.fst)
      have hAsub : ∀ x ∈ (qs.filter (fun p => toRemove.contains p.1)).map Prod.fst,
          x ∈ toRemove := by
        intro x hx
        simp only [List.mem_map] at hx
        obtain ⟨pp, hp, hpx⟩ := hx
        have hc := (List.mem_filter.mp hp).2
        rw [← hpx]
        exact List.elem_iff.mp hc
      calc (qs.filter (fun p => toRemove.contains p.1)).length
          = ((qs.filter (fun p => toRemove.contains p.1)).map Prod.fst).length := by
            rw [List.length_map]
        _ ≤ toRemove.length := (List.subperm_of_subset hAnd hAsub).length_le
    have hAge : toRemove.length ≤ (qs.filter (fun p => toRemove.contains p.1)).length := by
      have hsub : ∀ x ∈ toRemove,
          x ∈ (qs.filter (fun p => toRemove.contains p.1)).map Prod.fst := by
        intro x hx
        have hx0 := hx
        rw [htr] at hx
        simp only [List.mem_map] at hx
        obtain ⟨pp, hp, hpx⟩ := hx
        have hpsorted : pp ∈ sorted := List.mem_of_mem_take hp
        have hpqs : pp ∈ qs := hperm.mem_iff.mp hpsorted
        refine List.mem_map.mpr ⟨pp, List.mem_filter.mpr ⟨hpqs, ?_⟩, hpx⟩
        exact List.elem_iff.mpr (hpx ▸ hx0)
      calc toRemove.length
          ≤ ((qs.filter (fun p => toRemove.contains p.1)).map Prod.fst).length :=
            (List.subperm_of_subset htrnd hsub).length_le
        _ = (qs.filter (fun p => toRemove.contains p.1)).length := by rw [List.length_map]
    omega

/-- Writing a fresh key appends the entry at the end (JS object insertion
order). -/
theorem setKey_of_not_mem (c : Cache) (k : Key) (d : QueryData)
    (h : k ∉ c.map Prod.fst) : setKey c k d = c ++ [(k, d)] := by
  unfold setKey
  rw [if_neg]
  intro hc
  apply h
  simp only [List.any_eq_true] at hc
  obtain ⟨p, hp, hpk⟩ := hc
  exact List.mem_map.mpr ⟨p, hp, by simpa using hpk⟩

/-- One `store` call on a cache with distinct keys and strictly increasing
access times, a fresh query, and room for at most one eviction: the new
entry is appended and, exactly when the cache was full, the single oldest
entry (the head) is evicted. -/
theorem storeCore_step (now : Nat) (c : Cache) (q : Key) (v : Nat)
    (hnd : (c.map Prod.fst).Nodup)
    (hq : q ∉ c.map Prod.fst)
    (hle : c.length ≤ maxQueries)
    (hmono : List.Pairwise (fun a b => a.2.lastAccessed < b.2.lastAccessed) c)
    (hnow : ∀ p ∈ c, p.2.lastAccessed < now) :
    storeCore now c q v =
      (if c.length = maxQueries then c.tail else c) ++ [(q, mkEntry now v)] := by
  unfold storeCore
  rw [setKey_of_not_mem c q _ hq]
  by_cases hfull : c.length = maxQueries
  · rw [if_pos hfull]
    have hlen : (c ++ [(q, mkEntry now v)]).length = maxQueries + 1 := by
      simp [hfull]
    have hsortedpf : List.Sorted lruLE (c ++ [(q, mkEntry now v)]) := by
      rw [List.Sorted, List.pairwise_append]
      refine ⟨hmono.imp (fun hab => le_of_lt hab), List.pairwise_singleton _ _, ?_⟩
      intro p hp b hb
      simp only [List.mem_singleton] at hb
      subst hb
      exact le_of_lt (hnow p hp)
    have hsorted : List.insertionSort lruLE (c ++ [(q, mkEntry now v)]) =
        c ++ [(q, mkEntry now v)] := List.Sorted.insertionSort_eq hsortedpf
    cases c with
    | nil =>
      exfalso
      rw [List.length_nil] at hfull
      simp [maxQueries] at hfull
    | cons hd tl =>
      simp only [enforceMaxSize, hlen, hsorted]
      rw [if_neg (by omega)]
      have htake : maxQueries + 1 - maxQueries = 1 := by omega
      rw [htake]
      have h1 : List.take 1 (hd :: (tl ++ [(q, mkEntry now v)])) = [hd] := rfl
      simp only [List.cons_append, h1, List.map_cons, List.map_nil, List.filter_cons]
      have hfalse : (!([hd.1].contains hd.1)) = false := by simp
      rw [hfalse]
      simp only [Bool.false_eq_true, if_false, List.tail_cons]
      rw [List.filter_eq_self.mpr]
      intro p hp
      rcases List.mem_append.mp hp with hptl | hpnew
      · have hne : p.1 ≠ hd.1 := by
          intro he
          rw [List.map_cons, List.nodup_cons] at hnd
          exact hnd.1 (he ▸ List.mem_map.mpr ⟨p, hptl, rfl⟩)
        simp [hne]
      · simp only [List.mem_singleton] at hpnew
        subst hpnew
        have hne : q ≠ hd.1 := by
          intro he
          exact hq (he ▸ List.mem_map.mpr ⟨hd, List.mem_cons_self hd tl, rfl⟩)
        simp [hne]
  · rw [if_neg hfull]
    apply enforceMaxSize_of_le
    rw [List.length_append, List.length_singleton]
    omega

theorem storedEntries_keys (items : List (Key × Nat × Nat)) :
    (storedEntries items).map Prod.fst = items.map Prod.fst := by
  simp only [storedEntries, List.map_map]
  exact List.map_congr_left (fun x _ => rfl)

theorem storedEntries_append (l1 l2 : List (Key × Nat × Nat)) :
    storedEntries (l1 ++ l2) = storedEntries l1 ++ storedEntries l2 := by
  simp [storedEntries]

/-- Invariant of the `store`-only workload: after processing `done`, the
in-memory cache holds exactly the entries of the last
`min |done| maxQueries` triples of `done`, in order. -/
theorem storeSeq_inv :
    ∀ (rest done : List (Key × Nat × Nat)),
      ((done ++ rest).map Prod.fst).Nodup →
      List.Pairwise (· < ·) ((done ++ rest).map (fun it => it.2.2)) →
      storeSeq rest (storedEntries (done.drop (done.length - maxQueries))) =
        storedEntries ((done ++ rest).drop ((done ++ rest).length - maxQueries)) := by
  intro rest
  induction rest with
  | nil =>
    intro done _ _
    simp [storeSeq]
  | cons it rest ih =>
    intro done hnd htimes
    have hDsub : (done.drop (done.length - maxQueries)).Sublist done :=
      List.drop_sublist _ _
    have hkeysub : ((done.drop (done.length - maxQueries)).map Prod.fst).Sublist
        (done.map Prod.fst) := hDsub.map Prod.fst
    have hdonesub : (done.map Prod.fst).Sublist ((done ++ it :: rest).map Prod.fst) := by
      rw [List.map_append]
      exact List.sublist_append_left _ _
    have hnd1 : ((storedEntries (done.drop (done.length - maxQueries))).map Prod.fst).Nodup := by
      rw [storedEntries_keys]
      exact (hnd.sublist hdonesub).sublist hkeysub
    have hqfresh : it.1 ∉ (storedEntries (done.drop (done.length - maxQueries))).map Prod.fst := by
      rw [storedEntries_keys]
      intro hmem
      have hit1 : it.1 ∈ done.map Prod.fst :=
        List.Sublist.mem hmem hkeysub
      rw [List.map_append] at hnd
      have hdisj := List.disjoint_of_nodup_append hnd
      exact hdisj hit1 (by simp)
    have hlenc : (storedEntries (done.drop (done.length - maxQueries))).length ≤ maxQueries := by
      simp only [storedEntries, List.length_map, List.length_drop]
      omega
    have hmono1 : List.Pairwise (fun a b => a.2.lastAccessed < b.2.lastAccessed)
        (storedEntries (done.drop (done.length - maxQueries))) := by
      rw [storedEntries, List.pairwise_map]
      have htdone : List.Pairwise (· < ·) (done.map (fun it => it.2.2)) := by
        refine List.Pairwise.sublist ?_ htimes
        rw [List.map_append]
        exact List.sublist_append_left _ _
      have := (List.pairwise_map.mp htdone).sublist hDsub
      exact this.imp (fun hab => by simpa [mkEntry] using hab)
    have hnow1 : ∀ p ∈ storedEntries (done.drop (done.length - maxQueries)),
        p.2.lastAccessed < it.2.2 := by
      intro p hp
      simp only [storedEntries, List.mem_map] at hp
      obtain ⟨jt, hjt, hjp⟩ := hp
      have hjdone : jt ∈ done := List.Sublist.mem hjt hDsub
      rw [List.map_append] at htimes
      have hcross := (List.pairwise_append.mp htimes).2.2
      have := hcross jt.2.2 (List.mem_map.mpr ⟨jt, hjdone, rfl⟩) it.2.2 (by simp)
      rw [← hjp]
      simpa [mkEntry] using this
    rw [storeSeq, List.foldl_cons]
    rw [storeCore_step it.2.2 _ it.1 it.2.1 hnd1 hqfresh hlenc hmono1 hnow1]
    have hstep :
        (if (storedEntries (done.drop (done.length - maxQueries))).length = maxQueries
          then (storedEntries (done.drop (done.length - maxQueries))).tail
          else storedEntries (done.drop (done.length - maxQueries))) ++
            [(it.1, mkEntry it.2.2 it.2.1)] =
        storedEntries ((done ++ [it]).drop ((done ++ [it]).length - maxQueries)) := by
      have hlenD : (storedEntries (done.drop (done.length - maxQueries))).length =
          done.length - (done.length - maxQueries) := by
        simp [storedEntries, List.length_drop]
      have hdropapp : (done ++ [it]).drop ((done ++ [it]).length - maxQueries) =
          done.drop ((done ++ [it]).length - maxQueries) ++ [it] := by
        apply List.drop_append_of_le_length
        simp only [List.length_append, List.length_singleton, maxQueries]
        omega
      by_cases hfull : maxQueries ≤ done.length
      · have hiflen : (storedEntries (done.drop (done.length - maxQueries))).length =
            maxQueries := by omega
        rw [if_pos hiflen, hdropapp]
        have htail : (storedEntries (done.drop (done.length - maxQueries))).tail =
            storedEntries ((done.drop (done.length - maxQueries)).tail) := by
          simp [storedEntries, List.map_tail]
        rw [htail, List.tail_drop]
        have harith : done.length - maxQueries + 1 = (done ++ [it]).length - maxQueries := by
          simp only [List.length_append, List.length_singleton]
          omega
        rw [harith, storedEntries_append]
        rfl
      · push_neg at hfull
        have hiflen : (storedEntries (done.drop (done.length - maxQueries))).length ≠
            maxQueries := by rw [hlenD]; omega
        rw [if_neg hiflen, hdropapp]
        have h0 : done.length - maxQueries = 0 := by omega
        have h0' : (done ++ [it]).length - maxQueries = 0 := by
          simp only [List.length_append, List.length_singleton]
          omega
        rw [h0, h0', List.drop_zero, storedEntries_append]
        rfl
    rw [hstep]
    have hre1 : ((done ++ [it]) ++ rest).map Prod.fst = (done ++ it :: rest).map Prod.fst := by
      simp
    have hre2 : ((done ++ [it]) ++ rest).map (fun it => it.2.2) =
        (done ++ it :: rest).map (fun it => it.2.2) := by
      simp
    have happ : (done ++ [it]) ++ rest = done ++ it :: rest := by
      simp
    have := ih (done ++ [it]) (by rw [hre1]; exact hnd) (by rw [hre2]; exact htimes)
    rw [happ] at this
    exact this

/-- The `store`-only workload from an empty cache keeps exactly the last
`maxQueries` stored triples. -/
theorem storeSeq_drop (items : List (Key × Nat × Nat))
    (hnd : (items.map Prod.fst).Nodup)
    (htimes : List.Pairwise (· < ·) (items.map (fun it => it.2.2))) :
    storeSeq items [] = storedEntries (items.drop (items.length - maxQueries)) := by
  have := storeSeq_inv items [] (by simpa using hnd) (by simpa using htimes)
  simpa [storedEntries] using this

/-- Any value returned by the fuzzy step comes from an unexpired stored
entry. -/
theorem fuzzyStep_hit (now : Nat) (c : Cache) (q : Key) (v : Nat)
    (h : (fuzzyStep now c q).1 = some v) :
    ∃ k d, (k, d) ∈ c ∧ isExpired now d = false ∧ d.vectorResults = v := by
  cases hf : findFuzzyMatch q c with
  | none =>
    rw [fuzzyStep_nomatch now c q hf] at h
    simp at h
  | some m =>
    obtain ⟨k, s⟩ := m
    cases hg : getKey c k with
    | none =>
      unfold fuzzyStep at h
      rw [hf] at h
      simp only [hg] at h
      exact Option.noConfusion h
    | some fd =>
      rw [fuzzyStep_found now c q k s fd hf hg] at h
      by_cases he : isExpired now fd
      · rw [if_pos he] at h
        simp at h
      · rw [if_neg he] at h
        exact ⟨k, fd, getKey_mem c k fd hg, by simpa using he, by simpa using h⟩

/-- Any value returned by the in-memory lookup comes from an unexpired
stored entry. -/
theorem lookupCore_hit (now : Nat) (c : Cache) (q : Key) (v : Nat)
    (h : (lookupCore now c q).1 = some v) :
    ∃ k d, (k, d) ∈ c ∧ isExpired now d = false ∧ d.vectorResults = v := by
  cases hg : getKey c q with
  | none =>
    rw [lookupCore_no_exact now c q (by rw [hg]; rfl)] at h
    exact fuzzyStep_hit now c q v h
  | some qd =>
    by_cases he : isExpired now qd
    · rw [lookupCore_no_exact now c q (by rw [hg]; simpa using he)] at h
      exact fuzzyStep_hit now c q v h
    · rw [lookupCore_exact_hit now c q qd hg (by simpa using he)] at h
      exact ⟨q, qd, getKey_mem c q qd hg, by simpa using he, by simpa using h⟩

/-- The fuzzy step either hits (saving) or is a full no-op miss. -/
theorem fuzzyStep_cases (now : Nat) (c : Cache) (q : Key) :
    ((fuzzyStep now c q).1.isSome ∧ (fuzzyStep now c q).2.2 = true) ∨
      fuzzyStep now c q = (none, c, false) := by
  cases hf : findFuzzyMatch q c with
  | none => exact Or.inr (fuzzyStep_nomatch now c q hf)
  | some m =>
    obtain ⟨k, s⟩ := m
    cases hg : getKey c k with
    | none =>
      right
      unfold fuzzyStep
      rw [hf]
      simp only [hg]
    | some fd =>
      rw [fuzzyStep_found now c q k s fd hf hg]
      by_cases he : isExpired now fd
      · right
        rw [if_pos he]
      · left
        rw [if_neg he]
        exact ⟨rfl, rfl⟩

/-- The in-memory lookup either hits (saving) or is a full no-op miss. -/
theorem lookupCore_cases (now : Nat) (c : Cache) (q : Key) :
    ((lookupCore now c q).1.isSome ∧ (lookupCore now c q).2.2 = true) ∨
      lookupCore now c q = (none, c, false) := by
  cases hg : getKey c q with
  | none =>
    rw [lookupCore_no_exact now c q (by rw [hg]; rfl)]
    exact fuzzyStep_cases now c q
  | some qd =>
    by_cases he : isExpired now qd
    · rw [lookupCore_no_exact now c q (by rw [hg]; simpa using he)]
      exact fuzzyStep_cases now c q
    · rw [lookupCore_exact_hit now c q qd hg (by simpa using he)]
      exact Or.inl ⟨rfl, rfl⟩

/-- Claim C2: for every store state and lookup time, no entry with
`now > expiresAt` (or with no expiration data) is ever returned as a hit,
by the exact step or the fuzzy step; every returned value belongs to an
unexpired entry of the loaded store. -/
theorem claim_c2 (now : Nat) (disk : DiskState) (writeOk : Bool) (q : Key) (v : Nat)
    (h : (getCachedResults now disk writeOk q).1 = some v) :
    ∃ c, loadCache disk = .ok c ∧
      ∃ k d, (k, d) ∈ c ∧ isExpired now d = false ∧ d.vectorResults = v := by
  unfold getCachedResults at h
  cases hl : loadCache disk with
  | error e =>
    rw [hl] at h
    simp at h
  | ok c =>
    rw [hl] at h
    refine ⟨c, rfl, ?_⟩
    simp only at h
    by_cases hsav : (lookupCore now c q).2.2
    · rw [if_pos hsav] at h
      by_cases hw : writeOk
      · rw [if_pos hw] at h
        exact lookupCore_hit now c q v h
      · rw [if_neg hw] at h
        simp at h
    · rw [if_neg hsav] at h
      exact lookupCore_hit now c q v h

/-- Witness for C2: a concrete unexpired exact hit. -/
theorem claim_c2_witness :
    ∃ c, loadCache (.good [("a".data, ⟨7, 0, some 100, 0, 0⟩)]) = .ok c ∧
      ∃ k d, (k, d) ∈ c ∧ isExpired 50 d = false ∧ d.vectorResults = 7 :=
  claim_c2 50 (.good [("a".data, ⟨7, 0, some 100, 0, 0⟩)]) true "a".data 7 (by decide)

/-- Claim C7: persistence faults never propagate.  A missing store file
behaves as an empty store for both operations; a corrupt store file makes
the lookup miss and the store a no-op; a failed write makes the lookup
miss and the store drop the write, leaving the persisted state unchanged.
All operations are total functions (no exception reaches the caller). -/
theorem claim_c7 (now : Nat) (disk : DiskState) (writeOk : Bool) (q : Key) (v : Nat) :
    getCachedResults now .absent writeOk q = (none, .absent) ∧
    cacheResults now .absent true q v = .good (storeCore now [] q v) ∧
    getCachedResults now .corrupt writeOk q = (none, .corrupt) ∧
    cacheResults now .corrupt writeOk q v = .corrupt ∧
    getCachedResults now disk false q = (none, disk) ∧
    cacheResults now disk false q v = disk := by
  refine ⟨rfl, rfl, rfl, rfl, ?_, ?_⟩
  · cases disk with
    | absent => rfl
    | corrupt => rfl
    | good c =>
      rcases lookupCore_cases now c q with ⟨hsome, hsav⟩ | heq
      · unfold getCachedResults
        simp only [loadCache]
        rw [if_pos hsav, if_neg (Bool.false_ne_true)]
      · unfold getCachedResults
        simp only [loadCache]
        rw [heq]
        simp
  · cases disk <;> rfl

/-- Claim C9: a lookup that ends in a pure miss has no side effects: no
save is performed, no entry changes, and the persisted state is
untouched. -/
theorem claim_c9 (now : Nat) (c : Cache) (q : Key)
    (h : (lookupCore now c q).1 = none) :
    lookupCore now c q = (none, c, false) ∧
      getCachedResults now (.good c) true q = (none, .good c) ∧
      getCachedResults now (.good c) false q = (none, .good c) := by
  rcases lookupCore_cases now c q with ⟨hsome, _⟩ | heq
  · rw [h] at hsome
    simp at hsome
  · refine ⟨heq, ?_, ?_⟩ <;>
    · unfold getCachedResults
      simp only [loadCache]
      rw [heq]
      simp

/-- Witness for C9: a miss on the empty store. -/
theorem claim_c9_witness :
    lookupCore 5 [] "menu".data = (none, [], false) ∧
      getCachedResults 5 (.good []) true "menu".data = (none, .good []) ∧
      getCachedResults 5 (.good []) false "menu".data = (none, .good []) :=
  claim_c9 5 [] "menu".data (by decide)

/-- Claim C4: similarity is `1 - lev(normalized forms) / max length`
(classic unit-cost Levenshtein distance), is `1` when both normal forms
are empty, and a fuzzy candidate is accepted exactly when its similarity
reaches `fuzzyThreshold` (the boundary succeeds, strictly below fails);
concretely `"kids menu"` vs `"kid menu"` has distance 1 over max length 9,
similarity 8/9, which is accepted under threshold 0.8. -/
theorem claim_c4 (s1 s2 : List Char) (q k : Key) (d : QueryData) :
    (calculateSimilarity s1 s2 =
      if normalizeForFuzzy s1 = [] ∧ normalizeForFuzzy s2 = [] then 1
      else 1 - (lev (normalizeForFuzzy s1) (normalizeForFuzzy s2) : ℚ) /
        ((max (normalizeForFuzzy s1).length (normalizeForFuzzy s2).length : ℕ) : ℚ)) ∧
    (findFuzzyMatch q [(k, d)] ≠ none ↔ fuzzyThreshold ≤ calculateSimilarity q k) ∧
    normalizeForFuzzy "kids menu".data = "kids menu".data ∧
    normalizeForFuzzy "kid menu".data = "kid menu".data ∧
    lev "kids menu".data "kid menu".data = 1 ∧
    max "kids menu".data.length "kid menu".data.length = 9 ∧
    calculateSimilarity "kids menu".data "kid menu".data = 8 / 9 ∧
    fuzzyThreshold ≤ (8 / 9 : ℚ) := by
  have hkids : calculateSimilarity "kids menu".data "kid menu".data = 8 / 9 := by
    rw [calculateSimilarity_eval "kids menu".data "kid menu".data
      "kids menu".data "kid menu".data 1 9
      (by decide) (by decide) (by decide) (by decide) (by decide)]
    norm_num
  refine ⟨?_, ?_, by decide, by decide, ?_, by decide, hkids, by norm_num [fuzzyThreshold]⟩
  · by_cases h : normalizeForFuzzy s1 = [] ∧ normalizeForFuzzy s2 = []
    · rw [if_pos h]
      exact calculateSimilarity_empty s1 s2 h.1 h.2
    · rw [if_neg h]
      have hm : max (normalizeForFuzzy s1).length (normalizeForFuzzy s2).length ≠ 0 := by
        intro h0
        apply h
        have h1 : (normalizeForFuzzy s1).length = 0 ∧ (normalizeForFuzzy s2).length = 0 := by
          omega
        exact ⟨List.length_eq_zero.mp h1.1, List.length_eq_zero.mp h1.2⟩
      simp only [calculateSimilarity, if_neg hm, levenshteinDistance_eq_lev]
  · constructor
    · intro hne
      by_cases hc : fuzzyThreshold ≤ calculateSimilarity q k ∧
          (0 : ℚ) < calculateSimilarity q k
      · exact hc.1
      · exfalso
        apply hne
        simp only [findFuzzyMatch, List.map_cons, List.map_nil, findFuzzyMatchAux]
        rw [if_neg hc]
    · intro hth
      have hpos : (0 : ℚ) < calculateSimilarity q k :=
        lt_of_lt_of_le fuzzyThreshold_pos hth
      simp only [findFuzzyMatch, List.map_cons, List.map_nil, findFuzzyMatchAux]
      rw [if_pos ⟨hth, hpos⟩]
      simp
  · rw [← levenshteinDistance_eq_lev]
    decide

/-- Claim C6: after storing `"parking availability"` with value `v₁` in an
empty store, a lookup of `"Is parking available?"` (before expiry) is a
fuzzy hit returning `v₁`: both strings match-normalize to `"parking"`,
whose similarity (1) exceeds the 0.8 threshold, while no exact entry
matches the lookup string. -/
theorem claim_c6 :
    normalizeForFuzzy "Is parking available?".data = "parking".data ∧
    normalizeForFuzzy "parking availability".data = "parking".data ∧
    fuzzyThreshold < calculateSimilarity "Is parking available?".data
      "parking availability".data ∧
    cacheResults 0 .absent true "parking availability".data 42 =
      .good [("parking availability".data, mkEntry 0 42)] ∧
    getKey [("parking availability".data, mkEntry 0 42)] "Is parking available?".data =
      none ∧
    (getCachedResults 1000 (.good [("parking availability".data, mkEntry 0 42)]) true
        "Is parking available?".data).1 = some 42 := by
  have hsim : calculateSimilarity "Is parking available?".data
      "parking availability".data = 1 := by
    rw [calculateSimilarity_eval "Is parking available?".data "parking availability".data
      "parking".data "parking".data 0 7
      (by decide) (by decide) (by decide) (by decide) (by decide)]
    norm_num
  refine ⟨by decide, by decide, by rw [hsim]; norm_num [fuzzyThreshold], by decide,
    by decide, ?_⟩
  have hfind : findFuzzyMatch "Is parking available?".data
      [("parking availability".data, mkEntry 0 42)] =
      some ("parking availability".data, 1) := by
    simp only [findFuzzyMatch, List.map_cons, List.map_nil, findFuzzyMatchAux, hsim]
    rw [if_pos (by constructor <;> norm_num [fuzzyThreshold])]
  have h1 : lookupCore 1000 [("parking availability".data, mkEntry 0 42)]
      "Is parking available?".data =
      fuzzyStep 1000 [("parking availability".data, mkEntry 0 42)]
        "Is parking available?".data :=
    lookupCore_no_exact 1000 _ _ (by decide)
  have h2 : fuzzyStep 1000 [("parking availability".data, mkEntry 0 42)]
      "Is parking available?".data =
      (some (mkEntry 0 42).vectorResults,
        setKey [("parking availability".data, mkEntry 0 42)] "parking availability".data
          (touch 1000 (mkEntry 0 42)), true) := by
    rw [fuzzyStep_found 1000 _ _ "parking availability".data 1 (mkEntry 0 42) hfind
      (by decide)]
    rw [if_neg (by decide)]
  unfold getCachedResults
  simp only [loadCache, h1, h2]
  simp [mkEntry]

/-- Skipping a rejected block at the front of the scan. -/
theorem findFuzzyMatchAux_append_skip (q : Key) :
    ∀ (l1 l2 : List Key) (best : Option (Key × ℚ)) (bs : ℚ),
      (∀ k ∈ l1,
        ¬(fuzzyThreshold ≤ calculateSimilarity q k ∧ bs < calculateSimilarity q k)) →
      findFuzzyMatchAux q (l1 ++ l2) best bs = findFuzzyMatchAux q l2 best bs := by
  intro l1
  induction l1 with
  | nil => intro l2 best bs _; rfl
  | cons k l1 ih =>
    intro l2 best bs h
    rw [List.cons_append, findFuzzyMatchAux, if_neg (h k (List.mem_cons_self k l1))]
    exact ih l2 best bs (fun k' hk' => h k' (List.mem_cons_of_mem k hk'))

/-- In the expired-best scenario, the fuzzy scan picks the expired key
(similarity 1) over the live one (similarity 4/5). -/
theorem expiredBestCache_find :
    findFuzzyMatch "aaaaa".data expiredBestCache = some ("aaaaa?".data, 1) := by
  have hs1 : calculateSimilarity "aaaaa".data "aaaaa?".data = 1 := by
    rw [calculateSimilarity_eval "aaaaa".data "aaaaa?".data "aaaaa".data "aaaaa".data 0 5
      (by decide) (by decide) (by decide) (by decide) (by decide)]
    norm_num
  have hs2 : calculateSimilarity "aaaaa".data "aaaab".data = 4 / 5 := by
    rw [calculateSimilarity_eval "aaaaa".data "aaaab".data "aaaaa".data "aaaab".data 1 5
      (by decide) (by decide) (by decide) (by decide) (by decide)]
    norm_num
  simp only [findFuzzyMatch, expiredBestCache, List.map_cons, List.map_nil,
    findFuzzyMatchAux, hs1, hs2]
  rw [if_pos (by constructor <;> norm_num [fuzzyThreshold])]
  rw [if_neg (by norm_num [fuzzyThreshold])]

/-- Claim C1, counterexample: with no exact entry for the query, a
non-expired key scores at or above the threshold, yet the lookup misses,
because the expired first key won the candidate selection.  This refutes
the claim that expired keys never influence which candidate is selected
and that such a lookup returns a fuzzy hit for the best non-expired
key. -/
theorem claim_c1_counterexample :
    getKey expiredBestCache "aaaaa".data = none ∧
    fuzzyThreshold ≤ calculateSimilarity "aaaaa".data "aaaab".data ∧
    ("aaaab".data, (⟨2, 0, some 2000, 0, 0⟩ : QueryData)) ∈ expiredBestCache ∧
    isExpired 1000 (⟨2, 0, some 2000, 0, 0⟩ : QueryData) = false ∧
    (lookupCore 1000 expiredBestCache "aaaaa".data).1 = none ∧
    (getCachedResults 1000 (.good expiredBestCache) true "aaaaa".data).1 = none := by
  have hs2 : calculateSimilarity "aaaaa".data "aaaab".data = 4 / 5 := by
    rw [calculateSimilarity_eval "aaaaa".data "aaaab".data "aaaaa".data "aaaab".data 1 5
      (by decide) (by decide) (by decide) (by decide) (by decide)]
    norm_num
  have hlook : lookupCore 1000 expiredBestCache "aaaaa".data = (none, expiredBestCache, false) := by
    rw [lookupCore_no_exact 1000 _ _ (by decide)]
    rw [fuzzyStep_found 1000 _ _ "aaaaa?".data 1 ⟨1, 0, some 500, 0, 0⟩
      expiredBestCache_find (by decide)]
    rw [if_pos (by decide)]
  refine ⟨by decide, by rw [hs2]; norm_num [fuzzyThreshold], by decide, by decide,
    by rw [hlook], ?_⟩
  unfold getCachedResults
  simp only [loadCache, hlook]
  simp

/-- Claim C1 (amended): with no unexpired exact entry, the fuzzy step
scans all stored keys — expired ones included — and selects a candidate of
maximal similarity at or above the threshold; the lookup then returns a
fuzzy hit exactly when the selected candidate's own entry is unexpired,
and misses otherwise (even when other unexpired keys lie above the
threshold). -/
theorem claim_c1_amended (now : Nat) (c : Cache) (q : Key)
    (hex : (getKey c q).all (fun d => isExpired now d) = true) :
    (match findFuzzyMatch q c with
     | some m =>
         m.2 = calculateSimilarity q m.1 ∧ fuzzyThreshold ≤ m.2 ∧
         m.1 ∈ c.map Prod.fst ∧
         (∀ k ∈ c.map Prod.fst, calculateSimilarity q k ≤ m.2) ∧
         ((lookupCore now c q).1 = match getKey c m.1 with
           | some d => if isExpired now d then none else some d.vectorResults
           | none => none)
     | none =>
         (∀ k ∈ c.map Prod.fst, calculateSimilarity q k < fuzzyThreshold) ∧
         (lookupCore now c q).1 = none) := by
  have hcore := lookupCore_no_exact now c q hex
  cases hf : findFuzzyMatch q c with
  | none =>
    refine ⟨findFuzzyMatch_none q c hf, ?_⟩
    rw [hcore, fuzzyStep_nomatch now c q hf]
  | some m =>
    obtain ⟨k, s⟩ := m
    obtain ⟨hsim, hthr, hmem, hall⟩ := findFuzzyMatch_some q c k s hf
    refine ⟨hsim, hthr, hmem, hall, ?_⟩
    obtain ⟨d, hd⟩ := getKey_isSome_of_mem c k hmem
    rw [hd, hcore, fuzzyStep_found now c q k s d hf hd]
    by_cases he : isExpired now d
    · simp [he]
    · simp [he]

/-- Witness for the amended C1 at the expired-best scenario. -/
theorem claim_c1_witness :
    (match findFuzzyMatch "aaaaa".data expiredBestCache with
     | some m =>
         m.2 = calculateSimilarity "aaaaa".data m.1 ∧ fuzzyThreshold ≤ m.2 ∧
         m.1 ∈ expiredBestCache.map Prod.fst ∧
         (∀ k ∈ expiredBestCache.map Prod.fst,
            calculateSimilarity "aaaaa".data k ≤ m.2) ∧
         ((lookupCore 1000 expiredBestCache "aaaaa".data).1 =
           match getKey expiredBestCache m.1 with
           | some d => if isExpired 1000 d then none else some d.vectorResults
           | none => none)
     | none =>
         (∀ k ∈ expiredBestCache.map Prod.fst,
            calculateSimilarity "aaaaa".data k < fuzzyThreshold) ∧
         (lookupCore 1000 expiredBestCache "aaaaa".data).1 = none) :=
  claim_c1_amended 1000 expiredBestCache "aaaaa".data (by decide)

/-- In the empty-normal-form scenario, the fuzzy scan picks the first
empty-normalized key — the expired one. -/
theorem emptyNormCache_find :
    findFuzzyMatch "what".data emptyNormCache = some ("is".data, 1) := by
  have hs1 : calculateSimilarity "what".data "is".data = 1 :=
    calculateSimilarity_empty _ _ (by decide) (by decide)
  have hs2 : calculateSimilarity "what".data "the".data = 1 :=
    calculateSimilarity_empty _ _ (by decide) (by decide)
  simp only [findFuzzyMatch, emptyNormCache, List.map_cons, List.map_nil,
    findFuzzyMatchAux, hs1, hs2]
  rw [if_pos (by constructor <;> norm_num [fuzzyThreshold])]
  rw [if_neg (by norm_num)]

/-- Claim C10, counterexample: the query and both stored keys normalize to
the empty string; a non-expired empty-normalized key is present, yet the
lookup misses, because the first (expired) empty-normalized key won the
candidate selection.  This refutes the claim that such a lookup returns
the non-expired key's value. -/
theorem claim_c10_counterexample :
    normalizeForFuzzy "what".data = [] ∧
    normalizeForFuzzy "the".data = [] ∧
    ("the".data, (⟨2, 0, some 2000, 0, 0⟩ : QueryData)) ∈ emptyNormCache ∧
    isExpired 1000 (⟨2, 0, some 2000, 0, 0⟩ : QueryData) = false ∧
    calculateSimilarity "what".data "the".data = 1 ∧
    getKey emptyNormCache "what".data = none ∧
    (lookupCore 1000 emptyNormCache "what".data).1 = none ∧
    (getCachedResults 1000 (.good emptyNormCache) true "what".data).1 = none := by
  have hlook : lookupCore 1000 emptyNormCache "what".data =
      (none, emptyNormCache, false) := by
    rw [lookupCore_no_exact 1000 _ _ (by decide)]
    rw [fuzzyStep_found 1000 _ _ "is".data 1 ⟨1, 0, some 500, 0, 0⟩
      emptyNormCache_find (by decide)]
    rw [if_pos (by decide)]
  refine ⟨by decide, by decide, by decide, by decide,
    calculateSimilarity_empty _ _ (by decide) (by decide), by decide,
    by rw [hlook], ?_⟩
  unfold getCachedResults
  simp only [loadCache, hlook]
  simp

/-- Claim C10 (amended): a lookup whose normal form is empty returns — as
a fuzzy hit with similarity 1 — the value of the FIRST stored key (in
insertion order) whose normal form is also empty, provided that first such
key is non-expired and the query has no unexpired exact entry; keys with
non-empty normal forms score 0 and never compete, and later
empty-normalized keys are never consulted. -/
theorem claim_c10_amended (now : Nat) (q k : Key) (d : QueryData)
    (pre post : Cache)
    (hq : normalizeForFuzzy q = [])
    (hk : normalizeForFuzzy k = [])
    (hpre : ∀ p ∈ pre, normalizeForFuzzy p.1 ≠ [])
    (hex : (getKey (pre ++ (k, d) :: post) q).all (fun d => isExpired now d) = true)
    (hd : isExpired now d = false) :
    findFuzzyMatch q (pre ++ (k, d) :: post) = some (k, 1) ∧
    (lookupCore now (pre ++ (k, d) :: post) q).1 = some d.vectorResults := by
  have hfind : findFuzzyMatch q (pre ++ (k, d) :: post) = some (k, 1) := by
    unfold findFuzzyMatch
    rw [List.map_append, List.map_cons]
    rw [findFuzzyMatchAux_append_skip q (pre.map Prod.fst) _ none 0 ?hskip]
    case hskip =>
      intro k' hk'
      simp only [List.mem_map] at hk'
      obtain ⟨p, hp, hpk⟩ := hk'
      rw [← hpk, calculateSimilarity_empty_left q p.1 hq (hpre p hp)]
      intro hcon
      exact absurd (lt_of_lt_of_le fuzzyThreshold_pos hcon.1) (lt_irrefl 0 ∘
        fun h => lt_of_le_of_lt (le_of_lt hcon.2) h)
    rw [findFuzzyMatchAux, calculateSimilarity_empty q k hq hk]
    rw [if_pos (by constructor <;> norm_num [fuzzyThreshold])]
    rw [findFuzzyMatchAux_const q (post.map Prod.fst) _ 1 ?hpost]
    case hpost =>
      intro k' _
      intro hcon
      exact absurd hcon.2 (not_lt.mpr (calculateSimilarity_le_one q k'))
  have hgk : getKey (pre ++ (k, d) :: post) k = some d := by
    unfold getKey
    rw [List.find?_append]
    have hpre_none : pre.find? (fun p => p.1 == k) = none := by
      rw [List.find?_eq_none]
      intro p hp
      simp only [beq_iff_eq]
      intro he
      exact hpre p hp (he ▸ hk)
    rw [hpre_none]
    simp [List.find?_cons_of_pos]
  refine ⟨hfind, ?_⟩
  rw [lookupCore_no_exact now _ q hex, fuzzyStep_found now _ q k 1 d hfind hgk,
    if_neg (by simp [hd])]

/-- Witness for the amended C10: a single live empty-normalized key. -/
theorem claim_c10_witness :
    findFuzzyMatch "what".data ([] ++ ("the".data, (⟨2, 0, some 2000, 0, 0⟩ : QueryData)) :: []) =
      some ("the".data, 1) ∧
    (lookupCore 1000 ([] ++ ("the".data, (⟨2, 0, some 2000, 0, 0⟩ : QueryData)) :: [])
        "what".data).1 = some 2 :=
  claim_c10_amended 1000 "what".data "the".data ⟨2, 0, some 2000, 0, 0⟩ [] []
    (by decide) (by decide) (by simp) (by decide) (by decide)

/-- In the fuzzy-hit scenario, the scan matches the lone punctuated key
with similarity 1. -/
theorem fuzzyHitCache_find :
    findFuzzyMatch "menu".data fuzzyHitCache = some ("menu?".data, 1) := by
  have hs : calculateSimilarity "menu".data "menu?".data = 1 := by
    rw [calculateSimilarity_eval "menu".data "menu?".data "menu".data "menu".data 0 4
      (by decide) (by decide) (by decide) (by decide) (by decide)]
    norm_num
  simp only [findFuzzyMatch, fuzzyHitCache, List.map_cons, List.map_nil,
    findFuzzyMatchAux, hs]
  rw [if_pos (by constructor <;> norm_num [fuzzyThreshold])]

/-- Claim C8, counterexample: an exact-hit store and a fuzzy-hit store
give bit-identical lookup returns (`some 42`), so the return value cannot
carry the kind tag, matched key or similarity score the claim requires:
no decoding function can report `exact` for the first and `fuzzy` for the
second. -/
theorem claim_c8_counterexample :
    (getCachedResults 1000 (.good exactHitCache) true "menu".data).1 = some 42 ∧
    (getCachedResults 1000 (.good fuzzyHitCache) true "menu".data).1 = some 42 ∧
    getKey exactHitCache "menu".data ≠ none ∧
    getKey fuzzyHitCache "menu".data = none ∧
    ¬ ∃ f : Option Nat → SpecKind,
        f (getCachedResults 1000 (.good exactHitCache) true "menu".data).1 =
          SpecKind.exactKind ∧
        f (getCachedResults 1000 (.good fuzzyHitCache) true "menu".data).1 =
          SpecKind.fuzzyKind := by
  have h1 : (getCachedResults 1000 (.good exactHitCache) true "menu".data).1 =
      some 42 := by decide
  have hlook : lookupCore 1000 fuzzyHitCache "menu".data =
      (some 42, setKey fuzzyHitCache "menu?".data (touch 1000 ⟨42, 0, some 2000, 0, 0⟩),
        true) := by
    rw [lookupCore_no_exact 1000 _ _ (by decide)]
    rw [fuzzyStep_found 1000 _ _ "menu?".data 1 ⟨42, 0, some 2000, 0, 0⟩
      fuzzyHitCache_find (by decide)]
    rw [if_neg (by decide)]
  have h2 : (getCachedResults 1000 (.good fuzzyHitCache) true "menu".data).1 =
      some 42 := by
    unfold getCachedResults
    simp only [loadCache, hlook]
    simp
  refine ⟨h1, h2, by decide, by decide, ?_⟩
  rintro ⟨f, hf1, hf2⟩
  rw [h1] at hf1
  rw [h2] at hf2
  have : SpecKind.exactKind = SpecKind.fuzzyKind := hf1.symm.trans hf2
  cases this

/-- Claim C8 (amended): on a fuzzy hit the lookup returns only the matched
entry's bare `vectorResults`; the matched key and similarity are logged
but not returned, and the result is identical to the plain exact-hit
return for the matched key itself. -/
theorem claim_c8_amended (now : Nat) (c : Cache) (q k : Key) (s : ℚ) (d : QueryData)
    (hex : (getKey c q).all (fun e => isExpired now e) = true)
    (hf : findFuzzyMatch q c = some (k, s))
    (hk : getKey c k = some d)
    (hd : isExpired now d = false) :
    (lookupCore now c q).1 = some d.vectorResults ∧
    (lookupCore now c q).1 = (lookupCore now c k).1 := by
  have h1 : (lookupCore now c q).1 = some d.vectorResults := by
    rw [lookupCore_no_exact now c q hex, fuzzyStep_found now c q k s d hf hk,
      if_neg (by simp [hd])]
  refine ⟨h1, ?_⟩
  rw [h1, lookupCore_exact_hit now c k d hk hd]

/-- Witness for the amended C8 at the fuzzy-hit scenario. -/
theorem claim_c8_witness :
    (lookupCore 1000 fuzzyHitCache "menu".data).1 = some 42 ∧
    (lookupCore 1000 fuzzyHitCache "menu".data).1 =
      (lookupCore 1000 fuzzyHitCache "menu?".data).1 := by
  have h := claim_c8_amended 1000 fuzzyHitCache "menu".data "menu?".data 1
    ⟨42, 0, some 2000, 0, 0⟩ (by decide) fuzzyHitCache_find (by decide) (by decide)
  simpa using h

/-- Keys after `setKey`: unchanged on overwrite, appended on insert. -/
theorem setKey_keys (c : Cache) (q : Key) (d : QueryData) :
    (setKey c q d).map Prod.fst =
      if c.any (fun p => p.1 == q) then c.map Prod.fst else c.map Prod.fst ++ [q] := by
  unfold setKey
  split
  · rw [List.map_map]
    apply List.map_congr_left
    intro p _
    simp only [Function.comp_apply]
    split <;> rfl
  · simp

/-- Updating a key preserves distinctness of keys. -/
theorem setKey_keys_nodup (c : Cache) (q : Key) (d : QueryData)
    (h : (c.map Prod.fst).Nodup) : ((setKey c q d).map Prod.fst).Nodup := by
  rw [setKey_keys]
  split
  · exact h
  · rename_i hany
    have hq : q ∉ c.map Prod.fst := by
      intro hm
      apply hany
      simp only [List.mem_map] at hm
      obtain ⟨p, hp, hpq⟩ := hm
      simp only [List.any_eq_true]
      exact ⟨p, hp, by simp [hpq]⟩
    refine List.Nodup.append h (List.nodup_singleton q) ?_
    intro x hx hx'
    simp only [List.mem_singleton] at hx'
    subst hx'
    exact hq hx

/-- Claim C5, counterexample: a full cache whose ten entries are ALL
expired; under the claim, a store should count zero non-expired entries
against `maxQueries` and evict nothing, but the code counts every entry,
triggers eviction, and removes the oldest entry `q0`. -/
theorem claim_c5_counterexample :
    expiredFullCache.length = maxQueries ∧
    (∀ p ∈ expiredFullCache, isExpired 1000 p.2 = true) ∧
    (storeCore 1000 expiredFullCache "new".data 7).length = maxQueries ∧
    getKey (storeCore 1000 expiredFullCache "new".data 7) "q0".data = none ∧
    getKey (storeCore 1000 expiredFullCache "new".data 7) "new".data ≠ none := by
  decide

/-- Claim C5 (amended): expired entries count toward `maxQueries`
occupancy exactly like live ones — eviction triggers precisely when the
total entry count (expired included) exceeds `maxQueries`, and with
distinct keys it always leaves `min (total) maxQueries` entries. -/
theorem claim_c5_amended (qs : Cache) (h : (qs.map Prod.fst).Nodup) :
    (enforceMaxSize qs).length = min qs.length maxQueries ∧
    (qs.length ≤ maxQueries → enforceMaxSize qs = qs) :=
  ⟨enforceMaxSize_length qs h, enforceMaxSize_of_le qs⟩

/-- Witness for the amended C5 at a concrete eleven-entry store. -/
theorem claim_c5_witness :
    (enforceMaxSize (expiredFullCache ++ [("new".data, mkEntry 1000 7)])).length =
      min (expiredFullCache ++ [("new".data, mkEntry 1000 7)]).length maxQueries ∧
    ((expiredFullCache ++ [("new".data, mkEntry 1000 7)]).length ≤ maxQueries →
      enforceMaxSize (expiredFullCache ++ [("new".data, mkEntry 1000 7)]) =
        expiredFullCache ++ [("new".data, mkEntry 1000 7)]) :=
  claim_c5_amended (expiredFullCache ++ [("new".data, mkEntry 1000 7)]) (by decide)

/-- Claim C3: every store leaves at most `maxQueries` entries (given the
distinct-key store invariant), and a workload of `maxQueries + k` distinct
stores at increasing times with no intervening reads leaves exactly the
`maxQueries` most recently stored entries, the `k` oldest-`lastAccessed`
entries having been evicted. -/
theorem claim_c3 :
    (∀ (now : Nat) (c : Cache) (q : Key) (v : Nat),
        (c.map Prod.fst).Nodup → (storeCore now c q v).length ≤ maxQueries) ∧
    (∀ (items : List (Key × Nat × Nat)),
        (items.map Prod.fst).Nodup →
        List.Pairwise (· < ·) (items.map (fun it => it.2.2)) →
        maxQueries < items.length →
        storeSeq items [] = storedEntries (items.drop (items.length - maxQueries)) ∧
        (storeSeq items []).length = maxQueries ∧
        (storeSeq items []).map Prod.fst =
          (items.drop (items.length - maxQueries)).map Prod.fst) := by
  constructor
  · intro now c q v h
    unfold storeCore
    rw [enforceMaxSize_length _ (setKey_keys_nodup c q _ h)]
    exact Nat.min_le_right _ _
  · intro items hnd htimes hlen
    have heq := storeSeq_drop items hnd htimes
    refine ⟨heq, ?_, ?_⟩
    · rw [heq]
      simp only [storedEntries, List.length_map, List.length_drop]
      omega
    · rw [heq, storedEntries_keys]

/-- Witness for C3: the bounded-size part on a concrete full cache, and
the workload part on eleven concrete stores. -/
theorem claim_c3_witness :
    (storeCore 1000 expiredFullCache "new".data 7).length ≤ maxQueries ∧
    (storeSeq storeItems [] =
        storedEntries (storeItems.drop (storeItems.length - maxQueries)) ∧
      (storeSeq storeItems []).length = maxQueries ∧
      (storeSeq storeItems []).map Prod.fst =
        (storeItems.drop (storeItems.length - maxQueries)).map Prod.fst) :=
  ⟨claim_c3.1 1000 expiredFullCache "new".data 7 (by decide),
   claim_c3.2 storeItems (by decide) (by decide) (by decide)⟩

end RagCache
